import Mathlib

/-!
Verification of the gopulse ("vibe") CLI core against its specification.

The program derives a textual diff from git object state, asks a language
model for commit/PR text, parses the free-text reply, and gates mutating
actions behind an accept/edit/cancel confirmation.

The embedding below models strings as `List Char` (`Str`) so that every
operation is a structural Lean function mirroring the corresponding Go
string operation (`strings.Split`, `strings.TrimSpace`, `strings.Trim`,
`strings.TrimPrefix`, `strings.HasPrefix`, `strings.Contains`,
`strings.Join`, `strings.ToLower`).  All definitions are translated from
the Go source in `internal/git/git.go`, `internal/llm/openai.go`,
`internal/github` and `cmd/`.
-/

/-- Strings are modelled as lists of characters. -/
abbrev Str := List Char

/-- Convert a Lean string literal into the model representation. -/
def toStr (s : String) : Str := s.toList

/-- `strings.Split(s, "\n")`: split on newline; always returns at least one
piece, the empty string splits to `[""]`. -/
def splitOnNl : Str → List Str
  | [] => [[]]
  | c :: rest =>
    if c = '\n' then [] :: splitOnNl rest
    else (c :: (splitOnNl rest).headD []) :: (splitOnNl rest).tail

/-- `strings.Join(ls, "\n")`. -/
def joinNl : List Str → Str
  | [] => []
  | [l] => l
  | l :: ls => l ++ '\n' :: joinNl ls

/-- Drop the leading characters of `s` that belong to the cutset `cut`
(the one-sided half of Go's `strings.Trim`). -/
def dropIn (cut : List Char) (s : Str) : Str := s.dropWhile (fun c => cut.contains c)

/-- `strings.Trim(s, cut)`: remove every leading and trailing character
belonging to `cut`. -/
def trimIn (cut : List Char) (s : Str) : Str :=
  (dropIn cut (dropIn cut s).reverse).reverse

/-- `strings.TrimSpace`. -/
def trimSpaceStr (s : Str) : Str :=
  ((s.dropWhile Char.isWhitespace).reverse.dropWhile Char.isWhitespace).reverse

/-- `strings.HasPrefix(s, pat)` (pattern is the first argument here). -/
def hasPre : Str → Str → Bool
  | [], _ => true
  | _ :: _, [] => false
  | p :: ps, c :: cs => p == c && hasPre ps cs

/-- `strings.TrimPrefix(s, pat)`. -/
def dropPre (pat s : Str) : Str :=
  if hasPre pat s then s.drop pat.length else s

/-- `strings.Contains(s, pat)`. -/
def containsSub (pat : Str) : Str → Bool
  | [] => hasPre pat []
  | c :: rest => hasPre pat (c :: rest) || containsSub pat rest

/-- `strings.ToLower` (ASCII, which is all the source relies on). -/
def toLowerStr (s : Str) : Str := s.map Char.toLower

/-- The quote cutset `"\"'`"` used by `strings.Trim` in `openai.go`
(double quote, single quote, backtick). -/
def quoteCut : List Char := [Char.ofNat 34, Char.ofNat 39, Char.ofNat 96]

/-- The cutset `"\"'`#"` used for the fallback title line. -/
def quoteHashCut : List Char := quoteCut ++ ['#']

/- ## ChangeSetBuilder: `formatSimpleDiff` and `GetStagedDiff`
(`internal/git/git.go` lines 61-204) -/

/-- One `-` diff line with its trailing newline, as written by
`fmt.Sprintf("-%s\n", line)`. -/
def minusLine (l : Str) : Str := '-' :: l ++ ['\n']

/-- One `+` diff line with its trailing newline, as written by
`fmt.Sprintf("+%s\n", line)`. -/
def plusLine (l : Str) : Str := '+' :: l ++ ['\n']

/-- `formatSimpleDiff` (git.go 175-204): build the set of old lines and the
set of new lines (Go uses `map[string]bool`, i.e. membership by exact
text), emit each old line absent from the new set prefixed `-`, then each
new line absent from the old set prefixed `+`. -/
def formatSimpleDiff (oldLines newLines : List Str) : Str :=
  let removed := oldLines.foldl
    (fun acc l => if newLines.contains l then acc else acc ++ minusLine l) []
  let added := newLines.foldl
    (fun acc l => if oldLines.contains l then acc else acc ++ plusLine l) []
  removed ++ added

/-- The staging state of a status entry (go-git `StatusCode`, restricted to
the codes the source inspects). -/
inductive Staging where
  | unmodified
  | untracked
  | added
  | modified
  | deleted
deriving DecidableEq

/-- First-match lookup of a path in a path-to-content table.  Models both
the `headTree.File(filePath)` lookup and the `for _, entry := range
idx.Entries { if entry.Name == filePath { ...; break } }` loop. -/
def lookupStr : List (Str × Str) → Str → Option Str
  | [], _ => none
  | (q, c) :: rest, p => if q = p then some c else lookupStr rest p

/-- The `diff --git a/%s b/%s\n` header line written for every staged file. -/
def gitHeader (p : Str) : Str :=
  toStr "diff --git a/" ++ p ++ toStr " b/" ++ p ++ ['\n']

/-- Body of `+` lines for a file's content, one per `strings.Split` piece. -/
def plusBody (ls : List Str) : Str := (ls.map plusLine).flatten

/-- Body of `-` lines for a file's content, one per `strings.Split` piece. -/
def minusBody (ls : List Str) : Str := (ls.map minusLine).flatten

/-- The per-file block body written by the `switch fileStatus.Staging`
statement of `GetStagedDiff` (git.go 99-167), after the `diff --git`
header and before the trailing blank separator line.
`ht` is the HEAD tree (`none` when the repository has no commits),
`idx` the index entries. -/
def fileBlock (ht : Option (List (Str × Str))) (idx : List (Str × Str))
    (p : Str) : Staging → Str
  | .added =>
    toStr "new file\n" ++
    (match lookupStr idx p with
     | some content =>
       toStr "+++ b/" ++ p ++ ['\n'] ++ plusBody (splitOnNl content)
     | none => [])
  | .modified =>
    (match ht with
     | some t =>
       match lookupStr t p with
       | some oldContent =>
         toStr "--- a/" ++ p ++ ['\n'] ++ toStr "+++ b/" ++ p ++ ['\n'] ++
         (match lookupStr idx p with
          | some newContent =>
            formatSimpleDiff (splitOnNl oldContent) (splitOnNl newContent)
          | none => [])
       | none => []
     | none => [])
  | .deleted =>
    toStr "deleted file\n" ++
    (match ht with
     | some t =>
       match lookupStr t p with
       | some content => toStr "--- a/" ++ p ++ ['\n'] ++ minusBody (splitOnNl content)
       | none => []
     | none => [])
  | _ => []

/-- `GetStagedDiff` (git.go 61-172): iterate over the status entries,
skip `Unmodified`/`Untracked` ones, and for each staged file write the
`diff --git` header, the staging-specific block, and a blank separator
line. -/
def getStagedDiff (status : List (Str × Staging))
    (ht : Option (List (Str × Str))) (idx : List (Str × Str)) : Str :=
  match status with
  | [] => []
  | (p, st) :: rest =>
    (if st = .unmodified ∨ st = .untracked then []
     else gitHeader p ++ fileBlock ht idx p st ++ ['\n'])
    ++ getStagedDiff rest ht idx

/-- Render a list of lines, each followed by a newline.  Every chunk
`GetStagedDiff` writes ends in `\n`, so its whole output has this shape. -/
def unlines (ls : List Str) : Str := (ls.map (fun l => l ++ ['\n'])).flatten

/-- The lines making up the block of one `Added` file: the `diff --git`
header, the `new file` marker, then (when the path is found in the index)
the `+++ b/` path header and one `+`-prefixed line per source line, and
finally the blank separator line. -/
def addedLines (p : Str) (co : Option Str) : List Str :=
  (toStr "diff --git a/" ++ p ++ toStr " b/" ++ p) ::
  toStr "new file" ::
  ((match co with
    | some c => (toStr "+++ b/" ++ p) :: (splitOnNl c).map (fun l => '+' :: l)
    | none => []) ++ [[]])

/- ## BranchResolver: `GetDefaultBranch` and `GetCommitsAhead`
(`internal/git/git.go` lines 264-361) -/

/-- The reference scan of `GetDefaultBranch` (git.go 281-298): a reference
name containing `origin/main` stops the scan returning `main`
(`return fmt.Errorf("found")`), a name containing `origin/master` records
`master` in `defaultBranch` but keeps scanning. -/
def scanRefs : List Str → Str → Str
  | [], acc => acc
  | r :: rest, acc =>
    if containsSub (toStr "origin/main") r then toStr "main"
    else if containsSub (toStr "origin/master") r then scanRefs rest (toStr "master")
    else scanRefs rest acc

/-- `GetDefaultBranch` (git.go 265-302).  `hasMain`/`hasMaster` model the
existence of the local branches, `remotesNonempty` models
`err == nil && len(remotes) > 0`, and `refs` models `r.repo.References()`
(`none` when that call fails). -/
def getDefaultBranch (hasMain hasMaster remotesNonempty : Bool)
    (refs : Option (List Str)) : Except Unit Str :=
  if hasMain then .ok (toStr "main")
  else if hasMaster then .ok (toStr "master")
  else
    match remotesNonempty, refs with
    | true, some rs =>
      let d := scanRefs rs []
      if d ≠ [] then .ok d else .error ()
    | _, _ => .error ()

/-- A commit object as seen by the log traversal: full hash and message. -/
structure CommitObj where
  hash : Str
  message : Str
deriving DecidableEq

/-- `CommitInfo` (git.go 305-308): 7-character short hash and first
message line. -/
structure CommitInfo where
  hash : Str
  message : Str
deriving DecidableEq

/-- Build a `CommitInfo` as git.go 345-348 does:
`c.Hash.String()[:7]` and `strings.Split(c.Message, "\n")[0]`. -/
def mkCommitInfo (c : CommitObj) : CommitInfo :=
  ⟨c.hash.take 7, (splitOnNl c.message).headD []⟩

/-- The commits collected by the `commitIter.ForEach` callback
(git.go 339-350): collect until a commit whose hash equals the base tip is
reached; the base tip itself is not collected. -/
def collectAhead (baseHash : Str) : List CommitObj → List CommitInfo
  | [] => []
  | c :: rest =>
    if c.hash = baseHash then []
    else mkCommitInfo c :: collectAhead baseHash rest

/-- Whether the traversal reaches the base tip. -/
def reachedBase (baseHash : Str) (yielded : List CommitObj) : Bool :=
  yielded.any (fun c => c.hash == baseHash)

/-- `GetCommitsAhead` (git.go 311-361), after the HEAD and base references
have been resolved.  `yielded` is the sequence of commits the log iterator
produces from HEAD (reverse-chronological); `iterErr` is the error the
iterator itself ends with (`none` for a clean end).  When the base tip is
among the yielded commits, `ForEach` stops there with the sentinel error
`"reached base"`; otherwise the iterator's own outcome is the error.  The
source returns the error only when it is not the sentinel and zero commits
were collected. -/
def getCommitsAhead (yielded : List CommitObj) (iterErr : Option Str)
    (baseHash : Str) : Except Str (List CommitInfo) :=
  let commits := collectAhead baseHash yielded
  let err : Option Str :=
    if reachedBase baseHash yielded then some (toStr "reached base") else iterErr
  match err with
  | some e =>
    if e ≠ toStr "reached base" ∧ commits = [] then .error e else .ok commits
  | none => .ok commits

/- ## ResponseInterpreter (`internal/llm/openai.go`) -/

/-- The post-processing of the model reply in `GenerateCommitMessage`
(openai.go 81-86): `strings.TrimSpace` followed by
`strings.Trim(message, "\"'`" ++ "`" ++ "\"")` — i.e. trim the quote cutset
from both ends.  This is the `ParseCommitMessage` operation of the spec. -/
def parseCommitMessage (s : Str) : Str := trimIn quoteCut (trimSpaceStr s)

/-- Parsed PR content (`PRContent` in openai.go 27-30). -/
structure PRContent where
  title : Str
  description : Str
deriving DecidableEq

/-- The loop body of `parseDescription` (openai.go 191-220): a line whose
lowercased trimmed form starts with `description:` has the exact-case
`Description:`/`description:` prefix stripped and, when non-blank, is kept
trimmed; leading blank lines before any content are dropped; once content
has been seen every line is kept verbatim. -/
def parseDescLoop : List Str → Bool → List Str
  | [], _ => []
  | l :: rest, found =>
    let t := trimSpaceStr l
    if hasPre (toStr "description:") (toLowerStr t) then
      let t2 := trimSpaceStr (dropPre (toStr "description:")
        (dropPre (toStr "Description:") t))
      if t2 = [] then parseDescLoop rest found
      else t2 :: parseDescLoop rest true
    else if !found && t = [] then parseDescLoop rest found
    else l :: parseDescLoop rest true

/-- `parseDescription` (openai.go 191-220): run the loop, join with
newlines, and trim surrounding whitespace. -/
def parseDescription (lines : List Str) : Str :=
  trimSpaceStr (joinNl (parseDescLoop lines false))

/-- The title-scanning loop of `parsePRContent` (openai.go 154-180): the
first line whose lowercased trimmed form starts with `title:` has the
exact-case `Title:` and `title:` prefixes stripped and quote characters
trimmed; otherwise the first non-blank line, quote-and-`#`-trimmed, is the
title.  In both cases the remaining lines feed `parseDescription` and the
loop breaks. -/
def scanTitle : List Str → PRContent
  | [] => ⟨[], []⟩
  | l :: rest =>
    let t := trimSpaceStr l
    if hasPre (toStr "title:") (toLowerStr t) then
      let a := trimSpaceStr (dropPre (toStr "Title:") t)
      let b := trimSpaceStr (dropPre (toStr "title:") a)
      ⟨trimIn quoteCut b, if rest = [] then [] else parseDescription rest⟩
    else if t ≠ [] then
      ⟨trimIn quoteHashCut t, if rest = [] then [] else parseDescription rest⟩
    else scanTitle rest

/-- `parsePRContent` (openai.go 148-188): split the trimmed reply into
lines, scan for the title, then defensively strip a residual
`Title:`/`title:` prefix and trim whitespace. -/
def parsePRContent (content : Str) : PRContent :=
  let pr := scanTitle (splitOnNl (trimSpaceStr content))
  ⟨trimSpaceStr (dropPre (toStr "title:") (dropPre (toStr "Title:") pr.title)),
   pr.description⟩

/-- The first line of `ls` that is non-blank after whitespace trimming,
returned in trimmed form.  Used to characterise which line `scanTitle`
acts on. -/
def firstNonBlank : List Str → Option Str
  | [] => none
  | l :: rest =>
    if trimSpaceStr l ≠ [] then some (trimSpaceStr l) else firstNonBlank rest

/-- The complete title-extraction pipeline applied to the (trimmed) line
`scanTitle` selects, including the defensive post-pass of
`parsePRContent`. -/
def titleOfLine (t : Str) : Str :=
  let raw :=
    if hasPre (toStr "title:") (toLowerStr t) then
      trimIn quoteCut (trimSpaceStr (dropPre (toStr "title:")
        (trimSpaceStr (dropPre (toStr "Title:") t))))
    else trimIn quoteHashCut t
  trimSpaceStr (dropPre (toStr "title:") (dropPre (toStr "Title:") raw))

/- ## Forge service: `ParseRemoteURL` (`internal/github`) -/

/-- Repository coordinates (`RepoInfo`). -/
structure RepoInfo where
  owner : Str
  name : Str
deriving DecidableEq

/-- Split at the first `/`: `some (before, after)` when a slash exists. -/
def splitFirstSlash : Str → Option (Str × Str)
  | [] => none
  | c :: rest =>
    if c = '/' then some ([], rest)
    else
      match splitFirstSlash rest with
      | some (a, b) => some (c :: a, b)
      | none => none

/-- `strings.HasSuffix`-style check on the model strings. -/
def hasSuffixStr (pat s : Str) : Bool := hasPre pat.reverse s.reverse

/-- The lazy group `([^/]+?)(?:\.git)?$`: the shortest non-empty name such
that the remainder is `.git` or empty — i.e. a trailing `.git` is stripped
whenever what precedes it is non-empty. -/
def stripGitSfx (r : Str) : Str :=
  if 5 ≤ r.length ∧ hasSuffixStr (toStr ".git") r then (r.reverse.drop 4).reverse
  else r

/-- The shared tail `([^/]+)/([^/]+?)(?:\.git)?$` of both regexes, applied
to the text after the host separator: the owner runs to the first slash
and must be non-empty; the rest must be non-empty and slash-free; a
trailing `.git` is stripped from the name per the lazy group. -/
def tailCoords (r : Str) : Option (Str × Str) :=
  match splitFirstSlash r with
  | some (o, rest) =>
    if o ≠ [] ∧ rest ≠ [] ∧ '/' ∉ rest then some (o, stripGitSfx rest) else none
  | none => none

/-- Match `git@github\.com[:/]([^/]+)/([^/]+?)(?:\.git)?$` against the
whole of `s` (i.e. a match starting at this position and ending at `$`). -/
def fullSSH (s : Str) : Option (Str × Str) :=
  if hasPre (toStr "git@github.com") s then
    match s.drop 14 with
    | sep :: rest => if sep = ':' ∨ sep = '/' then tailCoords rest else none
    | [] => none
  else none

/-- Match `https?://github\.com/([^/]+)/([^/]+?)(?:\.git)?$` against the
whole of `s`. -/
def fullHTTPS (s : Str) : Option (Str × Str) :=
  if hasPre (toStr "https://github.com/") s then tailCoords (s.drop 19)
  else if hasPre (toStr "http://github.com/") s then tailCoords (s.drop 18)
  else none

/-- `FindStringSubmatch` with an end-anchored pattern: try the pattern at
each start position from the left (the pattern itself consumes everything
to the end of the string). -/
def findMatch (full : Str → Option (Str × Str)) : Str → Option (Str × Str)
  | [] => full []
  | c :: rest =>
    match full (c :: rest) with
    | some r => some r
    | none => findMatch full rest

/-- `ParseRemoteURL` (github package, part_004 lines 75-97): trim
whitespace, try the SSH regex, then the HTTPS regex, otherwise fail. -/
def ParseRemoteURL (url : Str) : Except Unit RepoInfo :=
  let u := trimSpaceStr url
  match findMatch fullSSH u with
  | some (o, n) => .ok ⟨o, n⟩
  | none =>
    match findMatch fullHTTPS u with
    | some (o, n) => .ok ⟨o, n⟩
    | none => .error ()

/- ## ConfirmationWorkflow dispatch (`cmd/commit.go` 94-112, `cmd/root.go`
`runPR` 201-245) -/

/-- The user's choice in the confirmation prompt (`ui.Action`). -/
inductive UIAction where
  | accept
  | edit
  | cancel
deriving DecidableEq

/-- An observable collaborator invocation made by the command runners
after the confirmation resolves. -/
inductive Effect where
  | commitCreate (message : Str)
  | push
  | prCreate (owner name base head title body : Str)
  | showInfo (message : Str)
  | showSuccess (message : Str)
deriving DecidableEq

/-- Whether an effect mutates repository or forge state (commit creation,
push, PR creation). -/
def isMutation : Effect → Bool
  | .commitCreate _ => true
  | .push => true
  | .prCreate _ _ _ _ _ _ => true
  | .showInfo _ => false
  | .showSuccess _ => false

/-- The `switch result.Action` of `runCommit` (commit.go 94-112): Cancel
prints a message and returns; Accept/Edit create the commit with the
resolved message and report the short hash. -/
def runCommitResolved (a : UIAction) (message : Str) (hash : Str) : List Effect :=
  match a with
  | .cancel => [.showInfo (toStr "Commit cancelled.")]
  | .accept | .edit =>
    [.commitCreate message, .showSuccess (toStr "Committed: " ++ hash)]

/-- The `switch result.Action` of `runPR` (root.go `runPR` 201-245):
Cancel prints a message and returns; Accept/Edit push when needed and
create the PR with the resolved title and description. -/
def runPRResolved (a : UIAction) (needsPush : Bool)
    (owner name base head title desc url : Str) : List Effect :=
  match a with
  | .cancel => [.showInfo (toStr "PR creation cancelled.")]
  | .accept | .edit =>
    (if needsPush then [.showInfo (toStr "Pushing branch to origin..."), .push]
     else [])
    ++ [.showInfo (toStr "Creating pull request..."),
        .prCreate owner name base head title desc,
        .showSuccess (toStr "PR created: " ++ url)]

/-!
## Helper lemmas
-/

/-- A builder loop that appends `f l` for every `l` not passing the
membership test is the flattening of `f` mapped over the filtered list. -/
theorem foldl_emit_eq (mem : Str → Bool) (f : Str → Str) :
    ∀ (ls : List Str) (acc : Str),
      ls.foldl (fun acc l => if mem l then acc else acc ++ f l) acc =
        acc ++ ((ls.filter (fun l => !mem l)).map f).flatten := by
  intro ls
  induction ls with
  | nil => intro acc; simp
  | cons l rest ih =>
    intro acc
    by_cases h : mem l = true
    · simp [List.foldl_cons, h, ih]
    · simp only [Bool.not_eq_true] at h
      simp [List.foldl_cons, h, ih, List.append_assoc]

/-- Characterisation of `formatSimpleDiff`: removals (old lines absent from
the new set, in old order) followed by additions (new lines absent from the
old set, in new order). -/
theorem formatSimpleDiff_eq (oldLines newLines : List Str) :
    formatSimpleDiff oldLines newLines =
      ((oldLines.filter (fun l => !newLines.contains l)).map minusLine).flatten ++
      ((newLines.filter (fun l => !oldLines.contains l)).map plusLine).flatten := by
  unfold formatSimpleDiff
  rw [foldl_emit_eq, foldl_emit_eq]
  simp

/-- `splitOnNl` never returns the empty list. -/
theorem splitOnNl_ne_nil (s : Str) : splitOnNl s ≠ [] := by
  induction s with
  | nil => simp [splitOnNl]
  | cons c rest ih =>
    by_cases h : c = '\n'
    · simp [splitOnNl, h]
    · simp [splitOnNl, h]

/-- Splitting a string that starts with a newline-free piece followed by a
newline yields that piece as the first line. -/
theorem splitOnNl_append_cons (a b : Str) (h : '\n' ∉ a) :
    splitOnNl (a ++ '\n' :: b) = a :: splitOnNl b := by
  induction a with
  | nil => simp [splitOnNl]
  | cons c a ih =>
    have hc : c ≠ '\n' := by
      intro hc; exact h (hc ▸ List.mem_cons_self c a)
    have ha : '\n' ∉ a := fun hm => h (List.mem_cons_of_mem c hm)
    rw [List.cons_append]
    simp only [splitOnNl, if_neg hc, ih ha]
    simp

/-- The pieces produced by `splitOnNl` contain no newline. -/
theorem mem_splitOnNl_no_nl (s : Str) : ∀ l ∈ splitOnNl s, '\n' ∉ l := by
  induction s with
  | nil =>
    intro l hl
    simp only [splitOnNl, List.mem_singleton] at hl
    subst hl; simp
  | cons c rest ih =>
    intro l hl
    by_cases h : c = '\n'
    · rw [show splitOnNl (c :: rest) = [] :: splitOnNl rest by
        simp [splitOnNl, h]] at hl
      rcases List.mem_cons.mp hl with hl | hl
      · subst hl; simp
      · exact ih l hl
    · rw [show splitOnNl (c :: rest) =
          (c :: (splitOnNl rest).headD []) :: (splitOnNl rest).tail by
        simp [splitOnNl, h]] at hl
      rcases List.mem_cons.mp hl with hl | hl
      · subst hl
        intro hm
        rcases List.mem_cons.mp hm with hm | hm
        · exact h hm.symm
        · have hhead : (splitOnNl rest).headD [] ∈ splitOnNl rest := by
            cases hr : splitOnNl rest with
            | nil => exact absurd hr (splitOnNl_ne_nil rest)
            | cons x xs => simp
          exact ih _ hhead hm
      · exact ih l (List.mem_of_mem_tail hl)

/-- `unlines` distributes over append. -/
theorem unlines_append (a b : List Str) :
    unlines (a ++ b) = unlines a ++ unlines b := by
  simp [unlines]

/-- Splitting the rendering of newline-free lines recovers the lines, plus
the empty final piece. -/
theorem splitOnNl_unlines (L : List Str) (h : ∀ l ∈ L, '\n' ∉ l) :
    splitOnNl (unlines L) = L ++ [[]] := by
  induction L with
  | nil => simp [unlines, splitOnNl]
  | cons l L ih =>
    have hl : '\n' ∉ l := h l (List.mem_cons_self l L)
    have hL : ∀ x ∈ L, '\n' ∉ x := fun x hx => h x (List.mem_cons_of_mem l hx)
    have : unlines (l :: L) = l ++ '\n' :: unlines L := by
      simp [unlines]
    rw [this, splitOnNl_append_cons l (unlines L) hl, ih hL]
    simp

/-- `plusBody` renders exactly the `+`-prefixed source lines. -/
theorem plusBody_eq_unlines (ls : List Str) :
    plusBody ls = unlines (ls.map (fun l => '+' :: l)) := by
  simp [plusBody, unlines, List.map_map]
  rfl

/-- The chunk `GetStagedDiff` writes for one `Added` file is the rendering
of its `addedLines`. -/
theorem added_block_eq_unlines (ht : Option (List (Str × Str)))
    (idx : List (Str × Str)) (p : Str) :
    gitHeader p ++ fileBlock ht idx p .added ++ ['\n'] =
      unlines (addedLines p (lookupStr idx p)) := by
  cases hco : lookupStr idx p with
  | none =>
    simp [gitHeader, fileBlock, addedLines, unlines, hco]
    rfl
  | some c =>
    simp [gitHeader, fileBlock, addedLines, unlines, hco,
      plusBody_eq_unlines, List.map_map]
    rfl

/-- On an all-`Added` status, `GetStagedDiff` renders the concatenation of
the per-file `addedLines`. -/
theorem getStagedDiff_added_eq_unlines (status : List (Str × Staging))
    (ht : Option (List (Str × Str))) (idx : List (Str × Str))
    (hadd : ∀ e ∈ status, e.2 = Staging.added) :
    getStagedDiff status ht idx =
      unlines ((status.map (fun e => addedLines e.1 (lookupStr idx e.1))).flatten) := by
  induction status with
  | nil => simp [getStagedDiff, unlines]
  | cons e rest ih =>
    obtain ⟨p, st⟩ := e
    have hst : st = Staging.added := hadd (p, st) (List.mem_cons_self _ _)
    have hrest : ∀ x ∈ rest, x.2 = Staging.added :=
      fun x hx => hadd x (List.mem_cons_of_mem _ hx)
    subst hst
    rw [show getStagedDiff ((p, Staging.added) :: rest) ht idx =
        (gitHeader p ++ fileBlock ht idx p .added ++ ['\n'])
          ++ getStagedDiff rest ht idx by
      simp [getStagedDiff]]
    rw [added_block_eq_unlines, ih hrest]
    simp [unlines_append]

/-- Lines of an `Added` block contain no newline when the path does not. -/
theorem addedLines_no_nl (p : Str) (co : Option Str) (hp : '\n' ∉ p) :
    ∀ l ∈ addedLines p co, '\n' ∉ l := by
  intro l hl
  have hlit1 : '\n' ∉ toStr "diff --git a/" := by decide
  have hlit2 : '\n' ∉ toStr " b/" := by decide
  have hlit3 : '\n' ∉ toStr "new file" := by decide
  have hlit4 : '\n' ∉ toStr "+++ b/" := by decide
  rcases List.mem_cons.mp hl with hl | hl
  · subst hl
    intro hm
    rcases List.mem_append.mp hm with hm | hm
    · rcases List.mem_append.mp hm with hm | hm
      · rcases List.mem_append.mp hm with hm | hm
        · exact hlit1 hm
        · exact hp hm
      · exact hlit2 hm
    · exact hp hm
  rcases List.mem_cons.mp hl with hl | hl
  · subst hl; exact hlit3
  rcases List.mem_append.mp hl with hl | hl
  · cases co with
    | none => simp at hl
    | some c =>
      simp only at hl
      rcases List.mem_cons.mp hl with hl | hl
      · subst hl
        intro hm
        rcases List.mem_append.mp hm with hm | hm
        · exact hlit4 hm
        · exact hp hm
      · obtain ⟨x, hx, hlx⟩ := List.mem_map.mp hl
        subst hlx
        intro hm
        rcases List.mem_cons.mp hm with hm | hm
        · exact absurd hm.symm (by decide)
        · exact mem_splitOnNl_no_nl c x hx hm
  · rcases List.mem_singleton.mp hl with hl
    subst hl; simp

/-!
## Claim theorems
-/

/-- C1: For every Modified file, the staged-diff block is the presence-set
diff of the old line list (HEAD tree) and the new line list (index): every
old line whose exact text is absent from the set of new lines prefixed
`-` in old order, then every new line absent from the set of old lines
prefixed `+` in new order; membership is by exact text.  For
old `a,b,c` and new `a,b,d` the body is exactly `-c` then `+d`. -/
theorem c1_modified_presence_set_diff :
    (∀ oldLines newLines : List Str,
      formatSimpleDiff oldLines newLines =
        ((oldLines.filter (fun l => !newLines.contains l)).map minusLine).flatten ++
        ((newLines.filter (fun l => !oldLines.contains l)).map plusLine).flatten) ∧
    (∀ p o n : Str,
      getStagedDiff [(p, .modified)] (some [(p, o)]) [(p, n)] =
        gitHeader p ++ toStr "--- a/" ++ p ++ ['\n'] ++ toStr "+++ b/" ++ p ++ ['\n'] ++
          formatSimpleDiff (splitOnNl o) (splitOnNl n) ++ ['\n']) ∧
    formatSimpleDiff [toStr "a", toStr "b", toStr "c"] [toStr "a", toStr "b", toStr "d"] =
      toStr "-c\n+d\n" := by
  refine ⟨formatSimpleDiff_eq, ?_, by decide⟩
  intro p o n
  simp [getStagedDiff, fileBlock, lookupStr, gitHeader, List.append_assoc]

/-- C10: two line lists with the same set of distinct line texts (e.g. a
permutation, or a duplication of lines) produce the empty presence-set
diff, so such a Modified file contributes no `+`/`-` body lines. -/
theorem c10_set_equal_empty_diff (oldLines newLines : List Str)
    (h1 : ∀ l ∈ oldLines, l ∈ newLines) (h2 : ∀ l ∈ newLines, l ∈ oldLines) :
    formatSimpleDiff oldLines newLines = [] := by
  rw [formatSimpleDiff_eq]
  have e1 : oldLines.filter (fun l => !newLines.contains l) = [] := by
    rw [List.filter_eq_nil_iff]
    intro a ha
    simp [h1 a ha]
  have e2 : newLines.filter (fun l => !oldLines.contains l) = [] := by
    rw [List.filter_eq_nil_iff]
    intro a ha
    simp [h2 a ha]
  rw [e1, e2]
  rfl

/-- Witness for C10: a reordered and duplicated line list yields the empty
diff. -/
theorem c10_witness :
    formatSimpleDiff [toStr "a", toStr "b"] [toStr "b", toStr "a", toStr "a"] = [] :=
  c10_set_equal_empty_diff _ _ (by decide) (by decide)

/-- C5: for a change set whose entries are all `Added` (with
newline-free paths), the staged-diff document consists, file by file, of
the `diff --git` header line, the `new file` marker, the `+++ b/` path
header, one `+`-prefixed line per source line of the file's indexed
content, and a blank separator — in particular no line of the document
starts with `-`. -/
theorem c5_added_only_all_plus (status : List (Str × Staging))
    (ht : Option (List (Str × Str))) (idx : List (Str × Str))
    (hadd : ∀ e ∈ status, e.2 = Staging.added)
    (hpath : ∀ e ∈ status, '\n' ∉ e.1) :
    splitOnNl (getStagedDiff status ht idx) =
      (status.map (fun e => addedLines e.1 (lookupStr idx e.1))).flatten ++ [[]] ∧
    ∀ l ∈ splitOnNl (getStagedDiff status ht idx), hasPre (toStr "-") l = false := by
  have hnl : ∀ l ∈ (status.map (fun e => addedLines e.1 (lookupStr idx e.1))).flatten,
      '\n' ∉ l := by
    intro l hl
    obtain ⟨bl, hbl, hlin⟩ := List.mem_flatten.mp hl
    obtain ⟨e, he, hbe⟩ := List.mem_map.mp hbl
    subst hbe
    exact addedLines_no_nl e.1 _ (hpath e he) l hlin
  have h1 : splitOnNl (getStagedDiff status ht idx) =
      (status.map (fun e => addedLines e.1 (lookupStr idx e.1))).flatten ++ [[]] := by
    rw [getStagedDiff_added_eq_unlines status ht idx hadd, splitOnNl_unlines _ hnl]
  refine ⟨h1, ?_⟩
  intro l hl
  rw [h1] at hl
  rcases List.mem_append.mp hl with hl | hl
  · obtain ⟨bl, hbl, hlin⟩ := List.mem_flatten.mp hl
    obtain ⟨e, he, hbe⟩ := List.mem_map.mp hbl
    subst hbe
    rcases List.mem_cons.mp hlin with hlin | hlin
    · subst hlin; rfl
    rcases List.mem_cons.mp hlin with hlin | hlin
    · subst hlin; rfl
    rcases List.mem_append.mp hlin with hlin | hlin
    · cases hco : lookupStr idx e.1 with
      | none => rw [hco] at hlin; simp at hlin
      | some c =>
        rw [hco] at hlin
        simp only at hlin
        rcases List.mem_cons.mp hlin with hlin | hlin
        · subst hlin; rfl
        · obtain ⟨x, hx, hlx⟩ := List.mem_map.mp hlin
          subst hlx; rfl
    · rw [List.mem_singleton.mp hlin]; rfl
  · rw [List.mem_singleton.mp hl]; rfl

/-- Witness for C5 at a concrete two-file all-`Added` change set. -/
theorem c5_witness :
    splitOnNl (getStagedDiff [(toStr "a.txt", .added), (toStr "b.txt", .added)] none
        [(toStr "a.txt", toStr "x\ny"), (toStr "b.txt", toStr "z")]) =
      ([(toStr "a.txt", Staging.added), (toStr "b.txt", Staging.added)].map
        (fun e => addedLines e.1
          (lookupStr [(toStr "a.txt", toStr "x\ny"), (toStr "b.txt", toStr "z")] e.1))).flatten
        ++ [[]] :=
  (c5_added_only_all_plus _ _ _ (by decide) (by decide)).1

/-- Collection stops exactly at the first commit carrying the base hash. -/
theorem collectAhead_append (pre post : List CommitObj) (base : CommitObj)
    (hpre : ∀ c ∈ pre, c.hash ≠ base.hash) :
    collectAhead base.hash (pre ++ base :: post) = pre.map mkCommitInfo := by
  induction pre with
  | nil => simp [collectAhead]
  | cons c rest ih =>
    have hc : c.hash ≠ base.hash := hpre c (List.mem_cons_self _ _)
    have hrest : ∀ x ∈ rest, x.hash ≠ base.hash :=
      fun x hx => hpre x (List.mem_cons_of_mem _ hx)
    simp [collectAhead, hc, ih hrest]

/-- When the base hash never occurs, every yielded commit is collected. -/
theorem collectAhead_all (yielded : List CommitObj) (b : Str)
    (h : ∀ c ∈ yielded, c.hash ≠ b) :
    collectAhead b yielded = yielded.map mkCommitInfo := by
  induction yielded with
  | nil => simp [collectAhead]
  | cons c rest ih =>
    have hc : c.hash ≠ b := h c (List.mem_cons_self _ _)
    have hrest : ∀ x ∈ rest, x.hash ≠ b :=
      fun x hx => h x (List.mem_cons_of_mem _ hx)
    simp [collectAhead, hc, ih hrest]

/-- C2: `GetCommitsAhead` returns one `CommitInfo` (7-character short
hash, first message line) per commit strictly before the base tip,
excluding the base tip, in traversal order (`H3->H2->H1->Base` yields
`[H3,H2,H1]`); when the base tip is never reached all visited commits are
returned without error; an error is returned exactly when zero commits
were collected and the traversal itself failed. -/
theorem c2_commits_ahead_characterisation :
    (∀ (pre post : List CommitObj) (iterErr : Option Str) (base : CommitObj),
      (∀ c ∈ pre, c.hash ≠ base.hash) →
      getCommitsAhead (pre ++ base :: post) iterErr base.hash =
        .ok (pre.map mkCommitInfo)) ∧
    (∀ (yielded : List CommitObj) (b : Str),
      (∀ c ∈ yielded, c.hash ≠ b) →
      getCommitsAhead yielded none b = .ok (yielded.map mkCommitInfo)) ∧
    (∀ (yielded : List CommitObj) (iterErr : Option Str) (b e : Str),
      getCommitsAhead yielded iterErr b = .error e ↔
        yielded = [] ∧ iterErr = some e ∧ e ≠ toStr "reached base") ∧
    (∀ c : CommitObj, 7 ≤ c.hash.length →
      (mkCommitInfo c).hash.length = 7 ∧
      (mkCommitInfo c).message = (splitOnNl c.message).headD []) := by
  refine ⟨?_, ?_, ?_, ?_⟩
  · intro pre post iterErr base hpre
    have hreach : reachedBase base.hash (pre ++ base :: post) = true := by
      simp [reachedBase]
    simp [getCommitsAhead, hreach, collectAhead_append pre post base hpre]
  · intro yielded b h
    have hreach : reachedBase b yielded = false := by
      simp [reachedBase]
      intro c hc
      exact h c hc
    simp [getCommitsAhead, hreach, collectAhead_all yielded b h]
  · intro yielded iterErr b e
    cases yielded with
    | nil =>
      cases iterErr with
      | none => simp [getCommitsAhead, reachedBase, collectAhead]
      | some x =>
        by_cases hx : x = toStr "reached base"
        · subst hx
          simp [getCommitsAhead, reachedBase, collectAhead]
          exact fun he => he.symm
        · simp [getCommitsAhead, reachedBase, collectAhead, hx]
          intro he
          exact he ▸ hx
    | cons y ys =>
      by_cases hy : y.hash = b
      · have hreach : reachedBase b (y :: ys) = true := by
          simp [reachedBase]
          exact Or.inl hy
        simp [getCommitsAhead, hreach]
      · have hcol : collectAhead b (y :: ys) =
            mkCommitInfo y :: collectAhead b ys := by
          simp [collectAhead, hy]
        cases hr : reachedBase b (y :: ys) with
        | true =>
          simp [getCommitsAhead, hr, hcol]
        | false =>
          cases iterErr with
          | none => simp [getCommitsAhead, hr, hcol]
          | some x => simp [getCommitsAhead, hr, hcol]
  · intro c h
    refine ⟨?_, rfl⟩
    simp [mkCommitInfo]
    omega

/-- Witness for C2: a three-commit branch over a base tip. -/
theorem c2_witness :
    getCommitsAhead
      [⟨toStr "aaaaaaaa31", toStr "m3\nbody"⟩, ⟨toStr "bbbbbbbb32", toStr "m2"⟩,
       ⟨toStr "cccccccc33", toStr "m1"⟩, ⟨toStr "dddddddd34", toStr "base"⟩,
       ⟨toStr "eeeeeeee35", toStr "older"⟩]
      none (toStr "dddddddd34") =
      .ok [⟨toStr "aaaaaaa", toStr "m3"⟩, ⟨toStr "bbbbbbb", toStr "m2"⟩,
           ⟨toStr "ccccccc", toStr "m1"⟩] := by
  have h := (c2_commits_ahead_characterisation.1)
    [⟨toStr "aaaaaaaa31", toStr "m3\nbody"⟩, ⟨toStr "bbbbbbbb32", toStr "m2"⟩,
     ⟨toStr "cccccccc33", toStr "m1"⟩]
    [⟨toStr "eeeeeeee35", toStr "older"⟩] none
    ⟨toStr "dddddddd34", toStr "base"⟩ (by decide)
  rw [show ([⟨toStr "aaaaaaaa31", toStr "m3\nbody"⟩, ⟨toStr "bbbbbbbb32", toStr "m2"⟩,
      ⟨toStr "cccccccc33", toStr "m1"⟩] : List CommitObj) ++
      (⟨toStr "dddddddd34", toStr "base"⟩ : CommitObj) ::
        [⟨toStr "eeeeeeee35", toStr "older"⟩] =
      [⟨toStr "aaaaaaaa31", toStr "m3\nbody"⟩, ⟨toStr "bbbbbbbb32", toStr "m2"⟩,
       ⟨toStr "cccccccc33", toStr "m1"⟩, ⟨toStr "dddddddd34", toStr "base"⟩,
       ⟨toStr "eeeeeeee35", toStr "older"⟩] from rfl] at h
  rw [h]
  rfl

/-- The reference scan returns `main` as soon as any reference name
contains `origin/main`, else `master` when any contains `origin/master`,
else the accumulator. -/
theorem scanRefs_eq (rs : List Str) :
    ∀ acc, scanRefs rs acc =
      if rs.any (containsSub (toStr "origin/main")) then toStr "main"
      else if rs.any (containsSub (toStr "origin/master")) then toStr "master"
      else acc := by
  induction rs with
  | nil => intro acc; simp [scanRefs]
  | cons r rest ih =>
    intro acc
    by_cases hmain : containsSub (toStr "origin/main") r = true
    · simp [scanRefs, hmain]
    · by_cases hmaster : containsSub (toStr "origin/master") r = true
      · simp only [scanRefs, hmain, if_neg, Bool.false_eq_true, if_false, hmaster, if_true]
        rw [ih]
        by_cases h2 : rest.any (containsSub (toStr "origin/main")) = true
        · simp [h2, List.any_cons, hmain, hmaster]
        · simp [h2, List.any_cons, hmain, hmaster]
      · simp only [scanRefs, hmain, Bool.false_eq_true, if_false, hmaster]
        rw [ih]
        simp [List.any_cons, hmain, hmaster]

/-- C6: `GetDefaultBranch` checks a local `main`, then a local `master`,
then scans references where a name containing `origin/main` wins
immediately and `origin/master` is recorded while the scan continues;
the first satisfied candidate is returned and the scan fails only when no
candidate is found.  With a local `main` and a remote `origin/master`, the
result is `main`. -/
theorem c6_default_branch_order :
    (∀ (hasMaster remotesNonempty : Bool) (refs : Option (List Str)),
      getDefaultBranch true hasMaster remotesNonempty refs = .ok (toStr "main")) ∧
    (∀ (remotesNonempty : Bool) (refs : Option (List Str)),
      getDefaultBranch false true remotesNonempty refs = .ok (toStr "master")) ∧
    (∀ rs : List Str,
      getDefaultBranch false false true (some rs) =
        if rs.any (containsSub (toStr "origin/main")) then .ok (toStr "main")
        else if rs.any (containsSub (toStr "origin/master")) then .ok (toStr "master")
        else .error ()) := by
  refine ⟨?_, ?_, ?_⟩
  · intro hasMaster remotesNonempty refs
    simp [getDefaultBranch]
  · intro remotesNonempty refs
    simp [getDefaultBranch]
  · intro rs
    simp only [getDefaultBranch, if_neg (by simp : ¬(false = true))]
    rw [scanRefs_eq rs []]
    by_cases h1 : rs.any (containsSub (toStr "origin/main")) = true
    · simp [h1]
      decide
    · by_cases h2 : rs.any (containsSub (toStr "origin/master")) = true
      · simp [h1, h2]
        decide
      · simp [h1, h2]

/-- `parseDescription` of no lines is empty. -/
theorem parseDescription_nil : parseDescription [] = [] := rfl

/-- The conditional the scan uses for the description tail collapses to
`parseDescription`. -/
theorem ite_parseDescription (rest : List Str) :
    (if rest = [] then ([] : Str) else parseDescription rest) = parseDescription rest := by
  cases rest <;> rfl

/-- The `title:` marker test fails on the empty (blank) line. -/
theorem hasPre_title_nil : hasPre (toStr "title:") (toLowerStr []) = false := by decide

/-- `scanTitle` skips lines that are blank after trimming. -/
theorem scanTitle_skip_blanks (bs : List Str) (xs : List Str)
    (hblank : ∀ b ∈ bs, trimSpaceStr b = []) :
    scanTitle (bs ++ xs) = scanTitle xs := by
  induction bs with
  | nil => rfl
  | cons b bs ih =>
    have hb : trimSpaceStr b = [] := hblank b (List.mem_cons_self _ _)
    have hbs : ∀ x ∈ bs, trimSpaceStr x = [] :=
      fun x hx => hblank x (List.mem_cons_of_mem _ hx)
    rw [List.cons_append]
    rw [show scanTitle (b :: (bs ++ xs)) = scanTitle (bs ++ xs) by
      simp [scanTitle, hb, hasPre_title_nil]]
    exact ih hbs

/-- The title computed by the scan (with the defensive post-pass of
`parsePRContent` applied) depends only on the first non-blank line,
through `titleOfLine`. -/
theorem scanTitle_title_eq (ls : List Str) :
    trimSpaceStr (dropPre (toStr "title:")
        (dropPre (toStr "Title:") (scanTitle ls).title)) =
      ((firstNonBlank ls).map titleOfLine).getD [] := by
  induction ls with
  | nil => decide
  | cons l rest ih =>
    by_cases hT : hasPre (toStr "title:") (toLowerStr (trimSpaceStr l)) = true
    · have hne : trimSpaceStr l ≠ [] := by
        intro h0
        rw [h0] at hT
        exact absurd hT (by decide)
      have hfnb : firstNonBlank (l :: rest) = some (trimSpaceStr l) := by
        simp [firstNonBlank, hne]
      rw [hfnb]
      simp [scanTitle, hT, titleOfLine]
    · by_cases hB : trimSpaceStr l = []
      · rw [show scanTitle (l :: rest) = scanTitle rest by
          simp [scanTitle, hT, hB, hasPre_title_nil]]
        rw [show firstNonBlank (l :: rest) = firstNonBlank rest by
          simp [firstNonBlank, hB]]
        exact ih
      · have hfnb : firstNonBlank (l :: rest) = some (trimSpaceStr l) := by
          simp [firstNonBlank, hB]
        rw [hfnb]
        simp [scanTitle, hT, hB, titleOfLine]

/-- C3 (amended): `ParsePRContent` is total and never yields a null title;
the title depends only on the first non-blank line of the trimmed input,
through the stripping pipeline `titleOfLine` — in particular it is empty
when the input is entirely blank lines, and also when that pipeline strips
the first non-blank line to nothing (e.g. a line of only `#`/quote
characters). -/
theorem c3_title_from_first_nonblank :
    (∀ content : Str,
      (parsePRContent content).title =
        ((firstNonBlank (splitOnNl (trimSpaceStr content))).map titleOfLine).getD []) ∧
    (∀ content : Str,
      firstNonBlank (splitOnNl (trimSpaceStr content)) = none →
      (parsePRContent content).title = []) := by
  have h : ∀ content : Str,
      (parsePRContent content).title =
        ((firstNonBlank (splitOnNl (trimSpaceStr content))).map titleOfLine).getD [] := by
    intro content
    simp only [parsePRContent]
    exact scanTitle_title_eq _
  refine ⟨h, ?_⟩
  intro content hnone
  rw [h content, hnone]
  rfl

/-- Counterexample for C3 as stated: the input `#` is not blank, yet the
parsed title is empty. -/
theorem c3_counterexample :
    (parsePRContent (toStr "#")).title = [] ∧ trimSpaceStr (toStr "#") ≠ [] := by
  decide

/-- C4 (amended): when the first non-blank line of the input starts
(case-insensitively, after trimming) with `title:`, the returned title is
that line with an exact-case `Title:` or `title:` prefix stripped — a
prefix in any other casing such as `TITLE:` is matched but left in place —
and surrounding quote characters trimmed; everything strictly after that
line is passed to the description parser. -/
theorem c4_title_marker_line (content t : Str) (bs rest : List Str)
    (hsplit : splitOnNl (trimSpaceStr content) = bs ++ t :: rest)
    (hblank : ∀ b ∈ bs, trimSpaceStr b = [])
    (hT : hasPre (toStr "title:") (toLowerStr (trimSpaceStr t)) = true) :
    parsePRContent content =
      ⟨titleOfLine (trimSpaceStr t), parseDescription rest⟩ := by
  simp only [parsePRContent, hsplit, scanTitle_skip_blanks bs (t :: rest) hblank]
  rw [show scanTitle (t :: rest) =
      ⟨trimIn quoteCut (trimSpaceStr (dropPre (toStr "title:")
        (trimSpaceStr (dropPre (toStr "Title:") (trimSpaceStr t))))),
       if rest = [] then [] else parseDescription rest⟩ by
    simp [scanTitle, hT]]
  rw [ite_parseDescription]
  simp [titleOfLine, hT]

/-- Witness for C4 at a concrete `Title:` input. -/
theorem c4_witness :
    parsePRContent (toStr "Title: ok\nBody") =
      ⟨titleOfLine (trimSpaceStr (toStr "Title: ok")),
       parseDescription [toStr "Body"]⟩ :=
  c4_title_marker_line (toStr "Title: ok\nBody") (toStr "Title: ok") [] [toStr "Body"]
    (by decide) (by decide) (by decide)

/-- Counterexample for C4 as stated: an upper-case `TITLE:` prefix is
matched but not stripped. -/
theorem c4_counterexample :
    (parsePRContent (toStr "TITLE: Fix")).title = toStr "TITLE: Fix" ∧
    toStr "TITLE: Fix" ≠ toStr "Fix" := by
  decide

/-- The head of `dropWhile p` never satisfies `p`. -/
theorem dropWhile_head_not (p : Char → Bool) (l : Str) :
    ((l.dropWhile p).head?).all (fun c => !p c) = true := by
  induction l with
  | nil => rfl
  | cons c cs ih =>
    by_cases h : p c = true
    · simpa [List.dropWhile, h] using ih
    · simp [List.dropWhile, h]

/-- The first character of a trimmed string is never in the cutset. -/
theorem trimIn_head_ok (cut : List Char) (s : Str) :
    ((trimIn cut s).head?).all (fun c => !(cut.contains c)) = true := by
  have hAsplit := List.takeWhile_append_dropWhile
    (fun c => cut.contains c) (dropIn cut s).reverse
  have hArev : dropIn cut s =
      ((dropIn cut s).reverse.dropWhile (fun c => cut.contains c)).reverse ++
      ((dropIn cut s).reverse.takeWhile (fun c => cut.contains c)).reverse := by
    have h2 := congrArg List.reverse hAsplit
    rw [List.reverse_append, List.reverse_reverse] at h2
    exact h2.symm
  have htrim : trimIn cut s =
      ((dropIn cut s).reverse.dropWhile (fun c => cut.contains c)).reverse := rfl
  rw [htrim]
  cases hD : ((dropIn cut s).reverse.dropWhile (fun c => cut.contains c)).reverse with
  | nil => rfl
  | cons c cs =>
    have hhead : (dropIn cut s).head? = some c := by
      rw [hArev, hD]
      rfl
    have h3 := dropWhile_head_not (fun c => cut.contains c) s
    rw [show List.dropWhile (fun c => cut.contains c) s = dropIn cut s from rfl,
      hhead] at h3
    simpa using h3

/-- The last character of a trimmed string is never in the cutset. -/
theorem trimIn_last_ok (cut : List Char) (s : Str) :
    ((trimIn cut s).getLast?).all (fun c => !(cut.contains c)) = true := by
  have htrim : trimIn cut s =
      ((dropIn cut s).reverse.dropWhile (fun c => cut.contains c)).reverse := rfl
  rw [htrim, List.getLast?_reverse]
  exact dropWhile_head_not (fun c => cut.contains c) (dropIn cut s).reverse

/-- C7 (amended): the commit-message post-processing first trims
surrounding whitespace, then strips every (not just one) leading and
trailing quote character; whitespace uncovered by the quote strip is not
re-trimmed.  Hence the result never starts or ends with a quote
character, and on the 13-character input `'  "Add x"  '` the result is
`  "Add x"  ` (inner quotes and spaces retained), not `Add x`. -/
theorem c7_commit_message_trim :
    (∀ s : Str,
      ((parseCommitMessage s).head?).all (fun c => !(quoteCut.contains c)) = true ∧
      ((parseCommitMessage s).getLast?).all (fun c => !(quoteCut.contains c)) = true) ∧
    parseCommitMessage (toStr "'  \"Add x\"  '") = toStr "  \"Add x\"  " := by
  refine ⟨fun s => ⟨trimIn_head_ok quoteCut (trimSpaceStr s),
    trimIn_last_ok quoteCut (trimSpaceStr s)⟩, by decide⟩

/-- Counterexample for C7 as stated: on `'  "Add x"  '` the source
returns `  "Add x"  `, not `Add x` — the quote trim stops at the interior
spaces, which are not re-trimmed. -/
theorem c7_counterexample :
    parseCommitMessage (toStr "'  \"Add x\"  '") = toStr "  \"Add x\"  " ∧
    toStr "  \"Add x\"  " ≠ toStr "Add x" := by
  decide

/-- C9: when the user selects Cancel, neither `runCommit` nor `runPR`
invokes any mutating collaborator (commit creation, push, PR creation),
regardless of the payload content. -/
theorem c9_cancel_no_mutation :
    (∀ message hash : Str,
      (runCommitResolved .cancel message hash).all (fun e => !isMutation e) = true) ∧
    (∀ (needsPush : Bool) (owner name base head title desc url : Str),
      (runPRResolved .cancel needsPush owner name base head title desc url).all
        (fun e => !isMutation e) = true) := by
  constructor
  · intro message hash
    rfl
  · intro needsPush owner name base head title desc url
    rfl

/-- A string starts with itself followed by anything. -/
theorem hasPre_self_append (p x : Str) : hasPre p (p ++ x) = true := by
  induction p with
  | nil => rfl
  | cons c cs ih => simp [hasPre, ih]

/-- Splitting at the first slash of `o ++ '/' :: r` when `o` is
slash-free. -/
theorem splitFirstSlash_append (o r : Str) (ho : '/' ∉ o) :
    splitFirstSlash (o ++ '/' :: r) = some (o, r) := by
  induction o with
  | nil => simp [splitFirstSlash]
  | cons c cs ih =>
    have hc : c ≠ '/' := fun h => ho (h ▸ List.mem_cons_self c cs)
    have hcs : '/' ∉ cs := fun h => ho (List.mem_cons_of_mem c h)
    rw [List.cons_append]
    simp [splitFirstSlash, hc, ih hcs]

/-- Stripping the `.git` suffix from a non-empty name. -/
theorem stripGitSfx_append (n : Str) (hn : n ≠ []) :
    stripGitSfx (n ++ toStr ".git") = n := by
  have hlen : 5 ≤ (n ++ toStr ".git").length := by
    rw [List.length_append]
    have : 1 ≤ n.length := List.length_pos.mpr hn
    have h4 : (toStr ".git").length = 4 := rfl
    omega
  have hsfx : hasSuffixStr (toStr ".git") (n ++ toStr ".git") = true := by
    rw [hasSuffixStr, List.reverse_append]
    exact hasPre_self_append (toStr ".git").reverse n.reverse
  rw [stripGitSfx, if_pos ⟨hlen, hsfx⟩, List.reverse_append]
  rw [show (4:Nat) = (toStr ".git").reverse.length from rfl, List.drop_left,
    List.reverse_reverse]

/-- A string whose first and last characters are not whitespace is
unchanged by `TrimSpace`. -/
theorem trimSpace_eq_self (S : Str)
    (h1 : (S.head?).all (fun c => !c.isWhitespace) = true)
    (h2 : (S.getLast?).all (fun c => !c.isWhitespace) = true) :
    trimSpaceStr S = S := by
  cases S with
  | nil => rfl
  | cons c tail =>
    have hc : c.isWhitespace = false := by simpa using h1
    have hdw : (c :: tail).dropWhile Char.isWhitespace = c :: tail := by
      simp [List.dropWhile, hc]
    rw [trimSpaceStr, hdw]
    cases hrev : (c :: tail).reverse with
    | nil => exact absurd hrev (by simp)
    | cons d ds =>
      have hlast : (c :: tail).getLast? = some d := by
        rw [← List.head?_reverse, hrev]
        rfl
      have hd : d.isWhitespace = false := by
        rw [hlast] at h2
        simpa using h2
      have hback := congrArg List.reverse hrev
      rw [List.reverse_reverse] at hback
      rw [List.dropWhile_cons, if_neg (by simp [hd])]
      exact hback.symm

/-- The full SSH regex matches the canonical SSH remote form at position
zero, capturing owner and name with the `.git` suffix stripped. -/
theorem fullSSH_canonical (o n : Str) (ho : o ≠ []) (hos : '/' ∉ o)
    (hn : n ≠ []) (hns : '/' ∉ n) :
    fullSSH (toStr "git@github.com:" ++ (o ++ '/' :: (n ++ toStr ".git"))) =
      some (o, n) := by
  rw [show toStr "git@github.com:" ++ (o ++ '/' :: (n ++ toStr ".git")) =
      toStr "git@github.com" ++ (':' :: (o ++ '/' :: (n ++ toStr ".git"))) from rfl]
  rw [fullSSH, if_pos (hasPre_self_append (toStr "git@github.com") _)]
  rw [show (14:Nat) = (toStr "git@github.com").length from rfl, List.drop_left]
  have hrest_ne : n ++ toStr ".git" ≠ [] := by
    intro h
    exact hn (List.append_eq_nil.mp h).1
  have hrest_sl : '/' ∉ n ++ toStr ".git" := by
    intro h
    rcases List.mem_append.mp h with h | h
    · exact hns h
    · exact absurd h (by decide)
  show (if ':' = ':' ∨ ':' = '/' then tailCoords (o ++ '/' :: (n ++ toStr ".git"))
    else none) = some (o, n)
  rw [if_pos (Or.inl rfl)]
  simp only [tailCoords, splitFirstSlash_append o _ hos]
  rw [if_pos (show o ≠ [] ∧ n ++ toStr ".git" ≠ [] ∧ '/' ∉ n ++ toStr ".git" from
    ⟨ho, hrest_ne, hrest_sl⟩)]
  rw [stripGitSfx_append n hn]

/-- A pattern that matches at the leftmost position is what `findMatch`
returns. -/
theorem findMatch_of_full (full : Str → Option (Str × Str)) (s : Str)
    (r : Str × Str) (h : full s = some r) : findMatch full s = some r := by
  cases s with
  | nil => simpa [findMatch] using h
  | cons c rest => simp [findMatch, h]

/-- The canonical SSH remote form is untouched by `TrimSpace`: it starts
with `g` and ends with the `t` of `.git`. -/
theorem trimSpace_ssh_canonical (o n : Str) :
    trimSpaceStr (toStr "git@github.com:" ++ (o ++ '/' :: (n ++ toStr ".git"))) =
      toStr "git@github.com:" ++ (o ++ '/' :: (n ++ toStr ".git")) := by
  apply trimSpace_eq_self
  · rfl
  · rw [← List.head?_reverse]
    simp only [List.reverse_append, List.reverse_cons, List.append_assoc]
    rfl

/-- C8 (amended): `ParseRemoteURL` maps the GitHub SSH form
`git@github.com:owner/name.git` to `(owner, name)` for every slash-free
non-empty owner and name, and on the spec's concrete URLs behaves as
stated (`git@github.com:acme/widgets.git` and
`https://github.com/acme/widgets` yield `acme`/`widgets`,
`https://gitlab.com/acme/widgets` fails) — but acceptance is not limited
to exactly the two documented forms (see the counterexample). -/
theorem c8_parse_remote_url (o n : Str) (ho : o ≠ []) (hos : '/' ∉ o)
    (hn : n ≠ []) (hns : '/' ∉ n) :
    ParseRemoteURL (toStr "git@github.com:" ++ (o ++ '/' :: (n ++ toStr ".git"))) =
      .ok ⟨o, n⟩ ∧
    ParseRemoteURL (toStr "git@github.com:acme/widgets.git") =
      .ok ⟨toStr "acme", toStr "widgets"⟩ ∧
    ParseRemoteURL (toStr "https://github.com/acme/widgets") =
      .ok ⟨toStr "acme", toStr "widgets"⟩ ∧
    ParseRemoteURL (toStr "https://gitlab.com/acme/widgets") = .error () := by
  refine ⟨?_, by rfl, by rfl, by rfl⟩
  rw [ParseRemoteURL]
  rw [trimSpace_ssh_canonical o n]
  rw [findMatch_of_full fullSSH _ (o, n) (fullSSH_canonical o n ho hos hn hns)]

/-- Witness for C8 at the spec's concrete owner and name. -/
theorem c8_witness :
    ParseRemoteURL (toStr "git@github.com:" ++
        (toStr "acme" ++ '/' :: (toStr "widgets" ++ toStr ".git"))) =
      .ok ⟨toStr "acme", toStr "widgets"⟩ :=
  (c8_parse_remote_url (toStr "acme") (toStr "widgets")
    (by decide) (by decide) (by decide) (by decide)).1

/-- Counterexample for C8 as stated: `git@github.com/acme/widgets` (slash
separator, not one of the two documented remote forms) is accepted rather
than rejected. -/
theorem c8_counterexample :
    ParseRemoteURL (toStr "git@github.com/acme/widgets") =
      .ok ⟨toStr "acme", toStr "widgets"⟩ := by
  rfl
